import Mathlib

/-!
Verification of `script_update.py`: a guarded literal find-and-replace over a
text file.  The script reads the file, checks `old in text`, raises
`SystemExit('pattern not found')` when the check fails, and otherwise writes
back `text.replace(old, new)`.  File contents are modelled as `List Char`;
the read/write pair is modelled as a function from the old content to the
new content (or to the mismatch error).
-/

namespace ScriptUpdate

/-- Python's `old in text` (literal substring containment) over lists of
characters: `old` is a prefix of some suffix of `text`. -/
def containsSub (old : List Char) : List Char → Bool
  | [] => old.isPrefixOf []
  | c :: rest => old.isPrefixOf (c :: rest) || containsSub old rest

/-- Python's `text.replace(old, new)` in the special case `old = ""`:
`new` is inserted at every character boundary of `text`
(e.g. `"ab".replace("", "X") == "XaXbX"`). -/
def replaceEmpty (new : List Char) : List Char → List Char
  | [] => new
  | c :: rest => new ++ c :: replaceEmpty new rest

/-- Python's `text.replace(old, new)` for a non-empty `old`: scan left to
right; at each position, when `old` matches, emit `new` and resume after the
matched span (non-overlapping), otherwise copy one character.  The `fuel`
argument only makes the recursion structural; it never runs out when it
starts at the length of the text (see `pyReplaceAux_eq`). -/
def pyReplaceAux (old new : List Char) : Nat → List Char → List Char
  | _, [] => []
  | 0, l => l
  | fuel + 1, c :: rest =>
    if old.isPrefixOf (c :: rest) ∧ old ≠ [] then
      new ++ pyReplaceAux old new fuel (rest.drop (old.length - 1))
    else
      c :: pyReplaceAux old new fuel rest

/-- `pyReplaceAux` with enough fuel: replace every non-overlapping leftmost
occurrence of a non-empty `old`. -/
def pyReplaceNE (old new text : List Char) : List Char :=
  pyReplaceAux old new text.length text

/-- Python's `text.replace(old, new)` (replace every occurrence; the empty
pattern matches at every boundary, as in CPython). -/
def pyReplace (old new text : List Char) : List Char :=
  if old = [] then replaceEmpty new text else pyReplaceNE old new text

/-- Outcome of one run of the patch operation: either the new file content,
or the fatal mismatch error (`SystemExit('pattern not found')`). -/
inductive PatchResult where
  | ok (content : List Char)
  | patchMismatch
deriving DecidableEq

/-- Lines 20–22 of `script_update.py`, parameterised by `expected`,
`replacement` and the file content as the spec's `applyPatch` prescribes:
if `expected` does not occur, fail with the mismatch error and write
nothing; otherwise return the content with every occurrence replaced. -/
def applyPatch (expected replacement text : List Char) : PatchResult :=
  if containsSub expected text then
    PatchResult.ok (pyReplace expected replacement text)
  else
    PatchResult.patchMismatch

/-- Observable outcome of the whole process: exit status, diagnostic
message, and the file content after the run. -/
structure RunResult where
  exitCode : Nat
  message : String
  content : List Char
deriving DecidableEq

/-- The script as a process: on mismatch it terminates via
`SystemExit('pattern not found')` (exit status 1, diagnostic printed,
file untouched); on success it exits 0 having written the new content. -/
def runPatch (expected replacement text : List Char) : RunResult :=
  if containsSub expected text then
    { exitCode := 0, message := "", content := pyReplace expected replacement text }
  else
    { exitCode := 1, message := "pattern not found", content := text }

/-- Number of positions of `text` at which `e` matches (occurrences may
overlap; positions range over `0..text.length`). -/
def countOccs (e text : List Char) : Nat :=
  ((Finset.range (text.length + 1)).filter fun i => e.isPrefixOf (text.drop i)).card

/-- Modelled from the spec: the alternative "replace first occurrence only"
semantics described in the spec's design note ("the original replaces only
the first textual occurrence").  Used only to compare against the code's
actual replace-all semantics. -/
def replaceFirstSpec (old new : List Char) : List Char → List Char
  | [] => []
  | c :: rest =>
    if old.isPrefixOf (c :: rest) ∧ old ≠ [] then
      new ++ rest.drop (old.length - 1)
    else
      c :: replaceFirstSpec old new rest

/-! ### Basic lemmas about the embedding -/

theorem pyReplaceAux_fuel (old new : List Char) :
    ∀ fuel₁ fuel₂ l, l.length ≤ fuel₁ → l.length ≤ fuel₂ →
      pyReplaceAux old new fuel₁ l = pyReplaceAux old new fuel₂ l := by
  intro fuel₁
  induction fuel₁ with
  | zero =>
    intro fuel₂ l h₁ _
    have hl : l = [] := List.eq_nil_of_length_eq_zero (Nat.le_zero.mp h₁)
    subst hl
    simp [pyReplaceAux]
  | succ f₁ ih =>
    intro fuel₂ l h₁ h₂
    cases l with
    | nil => simp [pyReplaceAux]
    | cons c rest =>
      cases fuel₂ with
      | zero => exact absurd h₂ (by simp)
      | succ f₂ =>
        simp only [List.length_cons, Nat.add_le_add_iff_right] at h₁ h₂
        simp only [pyReplaceAux]
        split
        · rw [ih f₂ (rest.drop (old.length - 1))
            (le_trans (by simp) h₁) (le_trans (by simp) h₂)]
        · rw [ih f₂ rest h₁ h₂]

theorem pyReplaceAux_eq (old new : List Char) (fuel : Nat) (l : List Char)
    (h : l.length ≤ fuel) :
    pyReplaceAux old new fuel l = pyReplaceNE old new l :=
  pyReplaceAux_fuel old new fuel l.length l h le_rfl

theorem pyReplaceNE_nil (old new : List Char) : pyReplaceNE old new [] = [] := rfl

theorem pyReplaceNE_cons (old new : List Char) (c : Char) (rest : List Char) :
    pyReplaceNE old new (c :: rest) =
      if old.isPrefixOf (c :: rest) ∧ old ≠ [] then
        new ++ pyReplaceNE old new (rest.drop (old.length - 1))
      else
        c :: pyReplaceNE old new rest := by
  show pyReplaceAux old new (rest.length + 1) (c :: rest) = _
  simp only [pyReplaceAux]
  split
  · rw [pyReplaceAux_eq old new rest.length _ (by simp)]
  · rw [pyReplaceAux_eq old new rest.length rest le_rfl]

theorem containsSub_iff_occurs (old text : List Char) :
    containsSub old text = true ↔ old <:+: text := by
  induction text with
  | nil =>
    simp [containsSub]
  | cons c rest ih =>
    simp [containsSub, List.infix_cons_iff, ih]

theorem infix_iff_exists_drop (e l : List Char) :
    e <:+: l ↔ ∃ i, i ≤ l.length ∧ e <+: l.drop i := by
  constructor
  · rintro ⟨s, t, rfl⟩
    refine ⟨s.length, by simp, ?_⟩
    rw [List.append_assoc, List.drop_left]
    exact List.prefix_append e t
  · rintro ⟨i, _, hp⟩
    exact List.IsInfix.trans hp.isInfix (List.drop_suffix i l).isInfix

/-- Where `old` never occurs, the scan copies the text unchanged. -/
theorem pyReplaceNE_of_absent (old new : List Char) :
    ∀ l, ¬ old <:+: l → pyReplaceNE old new l = l := by
  intro l
  induction l with
  | nil => intro _; rfl
  | cons c rest ih =>
    intro h
    rw [pyReplaceNE_cons]
    rw [if_neg]
    · rw [ih fun hh => h (List.infix_cons hh)]
    · rintro ⟨hpre, _⟩
      exact h (List.isPrefixOf_iff_prefix.mp hpre).isInfix

/-- At a position where non-empty `old` matches, the scan emits `new` and
resumes right after the matched span. -/
theorem pyReplaceNE_append_self (old new : List Char) (h : old ≠ []) (s : List Char) :
    pyReplaceNE old new (old ++ s) = new ++ pyReplaceNE old new s := by
  obtain ⟨c, old', rfl⟩ := List.exists_cons_of_ne_nil h
  rw [List.cons_append, pyReplaceNE_cons, if_pos]
  · have hd : (old' ++ s).drop ((c :: old').length - 1) = s := by
      simp only [List.length_cons, Nat.add_sub_cancel]
      exact List.drop_left old' s
    rw [hd]
  · exact ⟨List.isPrefixOf_iff_prefix.mpr (by rw [← List.cons_append]; exact List.prefix_append _ s), h⟩

/-- A prefix of the text at none of whose positions `old` matches is copied
verbatim by the scan. -/
theorem pyReplaceNE_append_of_no_match (old new : List Char) :
    ∀ p rest, (∀ i, i < p.length → ¬ old <+: (p ++ rest).drop i) →
      pyReplaceNE old new (p ++ rest) = p ++ pyReplaceNE old new rest := by
  intro p
  induction p with
  | nil => intro rest _; rfl
  | cons c p' ih =>
    intro rest h
    rw [List.cons_append, pyReplaceNE_cons, if_neg]
    · rw [ih rest fun i hi hpre => h (i + 1) (by simpa using hi) (by simpa using hpre),
        List.cons_append]
    · rintro ⟨hpre, _⟩
      exact h 0 (by simp) (by simpa using List.isPrefixOf_iff_prefix.mp hpre)

/-- Replacing `old` by itself is the identity. -/
theorem pyReplaceNE_self (old : List Char) (h : old ≠ []) :
    ∀ l, pyReplaceNE old old l = l := by
  have main : ∀ n l, l.length ≤ n → pyReplaceNE old old l = l := by
    intro n
    induction n with
    | zero =>
      intro l hl
      have : l = [] := List.eq_nil_of_length_eq_zero (Nat.le_zero.mp hl)
      subst this
      rfl
    | succ n ih =>
      intro l hl
      cases l with
      | nil => rfl
      | cons c rest =>
        simp only [List.length_cons, Nat.add_le_add_iff_right] at hl
        rw [pyReplaceNE_cons]
        split
        · rename_i hc
          have hpre : old <+: c :: rest := List.isPrefixOf_iff_prefix.mp hc.1
          rw [ih _ (le_trans (by simp) hl)]
          have heq := List.prefix_iff_eq_append.mp hpre
          obtain ⟨k, hk⟩ : ∃ k, old.length = k + 1 := by
            cases old with
            | nil => exact absurd rfl h
            | cons a t => exact ⟨t.length, rfl⟩
          rw [hk] at heq ⊢
          simpa [List.drop_succ_cons] using heq
        · rw [ih rest hl]
  exact fun l => main l.length l le_rfl

theorem mem_occFilter (e text : List Char) (i : Nat) :
    i ∈ (Finset.range (text.length + 1)).filter (fun j => e.isPrefixOf (text.drop j)) ↔
      i ≤ text.length ∧ e <+: text.drop i := by
  simp [Finset.mem_filter, Finset.mem_range, Nat.lt_succ_iff]

/-- When `e` occurs exactly once, every match position is the known one. -/
theorem occ_unique (e text : List Char) (j : Nat)
    (hcard : countOccs e text = 1)
    (hj : j ≤ text.length) (hmj : e <+: text.drop j) :
    ∀ i, i ≤ text.length → e <+: text.drop i → i = j := by
  simp only [countOccs] at hcard
  obtain ⟨a, ha⟩ := Finset.card_eq_one.mp hcard
  have hja : j = a := by
    have hm : j ∈ ({a} : Finset Nat) := ha ▸ (mem_occFilter e text j).mpr ⟨hj, hmj⟩
    simpa using hm
  intro i hi hmi
  have hm : i ∈ ({a} : Finset Nat) := ha ▸ (mem_occFilter e text i).mpr ⟨hi, hmi⟩
  simp only [Finset.mem_singleton] at hm
  omega

/-- When `e` occurs exactly twice, every match position is one of the two
known ones. -/
theorem occ_pair (e text : List Char) (j₁ j₂ : Nat)
    (hcard : countOccs e text = 2) (hne : j₁ ≠ j₂)
    (h₁ : j₁ ≤ text.length) (hm₁ : e <+: text.drop j₁)
    (h₂ : j₂ ≤ text.length) (hm₂ : e <+: text.drop j₂) :
    ∀ i, i ≤ text.length → e <+: text.drop i → i = j₁ ∨ i = j₂ := by
  simp only [countOccs] at hcard
  have hsub : ({j₁, j₂} : Finset Nat) ⊆
      (Finset.range (text.length + 1)).filter (fun j => e.isPrefixOf (text.drop j)) := by
    intro x hx
    simp only [Finset.mem_insert, Finset.mem_singleton] at hx
    rcases hx with rfl | rfl
    · exact (mem_occFilter e text x).mpr ⟨h₁, hm₁⟩
    · exact (mem_occFilter e text x).mpr ⟨h₂, hm₂⟩
  have hcard2 : ({j₁, j₂} : Finset Nat).card = 2 := Finset.card_pair hne
  have heq := Finset.eq_of_subset_of_card_le hsub (by rw [hcard, hcard2])
  intro i hi hmi
  have hm : i ∈ ({j₁, j₂} : Finset Nat) := by
    rw [heq]
    exact (mem_occFilter e text i).mpr ⟨hi, hmi⟩
  simpa using hm

/-- A match position of a non-empty pattern is at most the text length. -/
theorem occ_le_length (e s : List Char) (he : e ≠ []) (k : Nat)
    (h : e <+: s.drop k) : k ≤ s.length := by
  by_contra hk
  push_neg at hk
  rw [List.drop_eq_nil_of_le (le_of_lt hk)] at h
  exact he (List.prefix_nil.mp h)

/-- The empty pattern matches at every one of the `length + 1` boundaries. -/
theorem countOccs_nil (text : List Char) : countOccs [] text = text.length + 1 := by
  simp [countOccs, List.isPrefixOf]

theorem pyReplace_of_ne (e r text : List Char) (he : e ≠ []) :
    pyReplace e r text = pyReplaceNE e r text := by
  simp [pyReplace, he]

theorem applyPatch_of_occurs (e r text : List Char) (h : e <:+: text) :
    applyPatch e r text = PatchResult.ok (pyReplace e r text) := by
  simp [applyPatch, (containsSub_iff_occurs e text).mpr h]

theorem containsSub_eq_false (e text : List Char) (h : ¬ e <:+: text) :
    containsSub e text = false := by
  rw [← Bool.not_eq_true]
  exact fun hc => h ((containsSub_iff_occurs e text).mp hc)

theorem applyPatch_of_absent (e r text : List Char) (h : ¬ e <:+: text) :
    applyPatch e r text = PatchResult.patchMismatch := by
  simp [applyPatch, containsSub_eq_false e text h]

theorem replaceEmpty_nil (l : List Char) : replaceEmpty [] l = l := by
  induction l with
  | nil => rfl
  | cons c rest ih => simp [replaceEmpty, ih]

/-- With exactly one occurrence, replacement rewrites that occurrence and
copies everything else verbatim. -/
theorem pyReplaceNE_single (e r p s : List Char) (he : e ≠ [])
    (h : countOccs e (p ++ e ++ s) = 1) :
    pyReplaceNE e r (p ++ e ++ s) = p ++ r ++ s := by
  simp only [List.append_assoc] at h ⊢
  have hepos : 0 < e.length := List.length_pos.mpr he
  have hlen : (p ++ (e ++ s)).length = p.length + (e.length + s.length) := by simp
  have hm₁ : e <+: (p ++ (e ++ s)).drop p.length := by
    rw [List.drop_left]
    exact List.prefix_append e s
  have huniq := occ_unique e (p ++ (e ++ s)) p.length h (by omega) hm₁
  have hnop : ∀ i, i < p.length → ¬ e <+: (p ++ (e ++ s)).drop i := by
    intro i hi hm
    have := huniq i (by omega) hm
    omega
  rw [pyReplaceNE_append_of_no_match e r p (e ++ s) hnop,
    pyReplaceNE_append_self e r he s]
  have hnos : ¬ e <:+: s := by
    intro hinf
    obtain ⟨k, hk, hmk⟩ := (infix_iff_exists_drop e s).mp hinf
    have hdk : (p ++ (e ++ s)).drop (p.length + (e.length + k)) = s.drop k := by
      rw [List.drop_append, List.drop_append]
    have := huniq (p.length + (e.length + k)) (by omega) (hdk ▸ hmk)
    omega
  rw [pyReplaceNE_of_absent e r s hnos]

/-- With exactly two occurrences, replacement rewrites both and copies
everything else verbatim. -/
theorem pyReplaceNE_double (e r p m s : List Char) (he : e ≠ [])
    (h : countOccs e (p ++ e ++ m ++ e ++ s) = 2) :
    pyReplaceNE e r (p ++ e ++ m ++ e ++ s) = p ++ r ++ m ++ r ++ s := by
  simp only [List.append_assoc] at h ⊢
  have hepos : 0 < e.length := List.length_pos.mpr he
  have hlen : (p ++ (e ++ (m ++ (e ++ s)))).length =
      p.length + (e.length + (m.length + (e.length + s.length))) := by simp
  have hm₁ : e <+: (p ++ (e ++ (m ++ (e ++ s)))).drop p.length := by
    rw [List.drop_left]
    exact List.prefix_append e _
  have hm₂ : e <+: (p ++ (e ++ (m ++ (e ++ s)))).drop (p.length + (e.length + m.length)) := by
    rw [List.drop_append]
    rw [show e.length + m.length = e.length + (m.length + 0) from by omega]
    rw [List.drop_append, List.drop_append, List.drop]
    exact List.prefix_append e s
  have hpair := occ_pair e (p ++ (e ++ (m ++ (e ++ s)))) p.length
    (p.length + (e.length + m.length)) h (by omega) (by omega) hm₁ (by omega) hm₂
  have hnop : ∀ i, i < p.length → ¬ e <+: (p ++ (e ++ (m ++ (e ++ s)))).drop i := by
    intro i hi hm
    have := hpair i (by omega) hm
    omega
  rw [pyReplaceNE_append_of_no_match e r p _ hnop,
    pyReplaceNE_append_self e r he (m ++ (e ++ s))]
  have hnom : ∀ i, i < m.length → ¬ e <+: (m ++ (e ++ s)).drop i := by
    intro i hi hm
    have hdk : (p ++ (e ++ (m ++ (e ++ s)))).drop (p.length + (e.length + i)) =
        (m ++ (e ++ s)).drop i := by
      rw [List.drop_append, List.drop_append]
    have := hpair (p.length + (e.length + i)) (by omega) (hdk ▸ hm)
    omega
  rw [pyReplaceNE_append_of_no_match e r m (e ++ s) hnom,
    pyReplaceNE_append_self e r he s]
  have hnos : ¬ e <:+: s := by
    intro hinf
    obtain ⟨k, hk, hmk⟩ := (infix_iff_exists_drop e s).mp hinf
    have hdk : (p ++ (e ++ (m ++ (e ++ s)))).drop
        (p.length + (e.length + (m.length + (e.length + k)))) = s.drop k := by
      rw [List.drop_append, List.drop_append, List.drop_append, List.drop_append]
    have := hpair (p.length + (e.length + (m.length + (e.length + k)))) (by omega) (hdk ▸ hmk)
    omega
  rw [pyReplaceNE_of_absent e r s hnos]

/-- An occurrence of a non-empty `e` in `x ++ y` either uses a character of
`x` or lies entirely inside `y`. -/
theorem infix_append_cases (e x y : List Char) (he : e ≠ []) (h : e <:+: x ++ y) :
    (∃ c, c ∈ e ∧ c ∈ x) ∨ e <:+: y := by
  obtain ⟨i, hi, hp⟩ := (infix_iff_exists_drop e (x ++ y)).mp h
  by_cases hix : x.length ≤ i
  · right
    obtain ⟨j, rfl⟩ : ∃ j, i = x.length + j := ⟨i - x.length, by omega⟩
    rw [List.drop_append] at hp
    have hj : j ≤ y.length := by
      simp only [List.length_append] at hi
      omega
    exact (infix_iff_exists_drop e y).mpr ⟨j, hj, hp⟩
  · left
    push_neg at hix
    rw [List.drop_append_of_le_length (le_of_lt hix)] at hp
    have hx : x.drop i ≠ [] := by
      rw [Ne, List.drop_eq_nil_iff]
      omega
    obtain ⟨d, t, hdt⟩ := List.exists_cons_of_ne_nil hx
    obtain ⟨c, e', rfl⟩ := List.exists_cons_of_ne_nil he
    rw [hdt, List.cons_append, List.cons_prefix_cons] at hp
    obtain ⟨rfl, -⟩ := hp
    refine ⟨c, by simp, List.mem_of_mem_drop (l := x) (n := i) ?_⟩
    rw [hdt]
    simp

/-- Any partial suffix of the pattern that prefixes the scan's output already
prefixes the scanned text (characters of `r` never appear in `e`). -/
theorem drop_prefix_out (e r : List Char) (hr : r ≠ [])
    (hd : ∀ c, c ∈ e → c ∉ r) :
    ∀ n l, l.length ≤ n → ∀ k, k < e.length →
      e.drop k <+: pyReplaceNE e r l → e.drop k <+: l := by
  intro n
  induction n with
  | zero =>
    intro l hl k hk hp
    have hl0 : l = [] := List.eq_nil_of_length_eq_zero (Nat.le_zero.mp hl)
    subst hl0
    rw [pyReplaceNE_nil] at hp
    have := List.prefix_nil.mp hp
    rw [List.drop_eq_nil_iff] at this
    omega
  | succ n ih =>
    intro l hl k hk hp
    cases l with
    | nil =>
      rw [pyReplaceNE_nil] at hp
      have := List.prefix_nil.mp hp
      rw [List.drop_eq_nil_iff] at this
      omega
    | cons c rest =>
      simp only [List.length_cons, Nat.add_le_add_iff_right] at hl
      rw [pyReplaceNE_cons] at hp
      by_cases hc : e.isPrefixOf (c :: rest) ∧ e ≠ []
      · rw [if_pos hc] at hp
        have hek : e.drop k ≠ [] := by
          rw [Ne, List.drop_eq_nil_iff]
          omega
        obtain ⟨a, t, hat⟩ := List.exists_cons_of_ne_nil hek
        obtain ⟨b, r', rfl⟩ := List.exists_cons_of_ne_nil hr
        rw [hat, List.cons_append, List.cons_prefix_cons] at hp
        obtain ⟨rfl, -⟩ := hp
        have ha : a ∈ e := List.mem_of_mem_drop (l := e) (n := k) (by rw [hat]; simp)
        exact absurd (by simp) (hd a ha)
      · rw [if_neg hc] at hp
        have hkd : e.drop k = e[k] :: e.drop (k + 1) := List.drop_eq_getElem_cons hk
        rw [hkd, List.cons_prefix_cons] at hp
        obtain ⟨hek, hp'⟩ := hp
        by_cases hk1 : k + 1 < e.length
        · have := ih rest hl (k + 1) hk1 hp'
          rw [hkd, hek]
          exact List.cons_prefix_cons.mpr ⟨rfl, this⟩
        · have hnil : e.drop (k + 1) = [] := List.drop_eq_nil_of_le (by omega)
          rw [hkd, hek, hnil]
          exact List.cons_prefix_cons.mpr ⟨rfl, List.nil_prefix⟩

/-- When the replacement is non-empty and shares no character with the
non-empty pattern, the pattern never occurs in the scan's output. -/
theorem not_infix_pyReplaceNE (e r : List Char) (he : e ≠ []) (hr : r ≠ [])
    (hd : ∀ c, c ∈ e → c ∉ r) :
    ∀ l, ¬ e <:+: pyReplaceNE e r l := by
  have hepos : 0 < e.length := List.length_pos.mpr he
  have main : ∀ n l, l.length ≤ n → ¬ e <:+: pyReplaceNE e r l := by
    intro n
    induction n with
    | zero =>
      intro l hl hinf
      have hl0 : l = [] := List.eq_nil_of_length_eq_zero (Nat.le_zero.mp hl)
      subst hl0
      rw [pyReplaceNE_nil] at hinf
      exact he (List.infix_nil.mp hinf)
    | succ n ih =>
      intro l hl hinf
      cases l with
      | nil =>
        rw [pyReplaceNE_nil] at hinf
        exact he (List.infix_nil.mp hinf)
      | cons c rest =>
        simp only [List.length_cons, Nat.add_le_add_iff_right] at hl
        rw [pyReplaceNE_cons] at hinf
        by_cases hc : e.isPrefixOf (c :: rest) ∧ e ≠ []
        · rw [if_pos hc] at hinf
          rcases infix_append_cases e r _ he hinf with ⟨ch, hce, hcr⟩ | hinf2
          · exact hd ch hce hcr
          · refine ih (rest.drop (e.length - 1)) ?_ hinf2
            simp only [List.length_drop]
            omega
        · rw [if_neg hc] at hinf
          rcases List.infix_cons_iff.mp hinf with hpre | hinf2
          · have hout : e <+: pyReplaceNE e r (c :: rest) := by
              rw [pyReplaceNE_cons, if_neg hc]
              exact hpre
            have hin := drop_prefix_out e r hr hd (c :: rest).length (c :: rest)
              le_rfl 0 hepos (by simpa using hout)
            exact hc ⟨List.isPrefixOf_iff_prefix.mpr (by simpa using hin), he⟩
          · exact ih rest hl hinf2
  exact fun l => main l.length l le_rfl

/-- Whenever the non-empty pattern occurs, the replacement occurs in the
scan's output. -/
theorem replacement_infix_pyReplaceNE (e r : List Char) (he : e ≠ []) :
    ∀ l, e <:+: l → r <:+: pyReplaceNE e r l := by
  intro l
  induction l with
  | nil =>
    intro hinf
    exact absurd (List.infix_nil.mp hinf) he
  | cons c rest ih =>
    intro hinf
    rw [pyReplaceNE_cons]
    by_cases hc : e.isPrefixOf (c :: rest) ∧ e ≠ []
    · rw [if_pos hc]
      exact (List.prefix_append r _).isInfix
    · rw [if_neg hc]
      rcases List.infix_cons_iff.mp hinf with hpre | hinf2
      · exact absurd ⟨List.isPrefixOf_iff_prefix.mpr hpre, he⟩ hc
      · exact List.infix_cons (ih hinf2)

/-- The empty-pattern branch inserts the replacement at every boundary. -/
theorem replaceEmpty_eq (r : List Char) :
    ∀ l, replaceEmpty r l = r ++ (l.map fun c => c :: r).flatten := by
  intro l
  induction l with
  | nil => simp [replaceEmpty]
  | cons c rest ih => simp [replaceEmpty, ih]

example : pyReplace ['b'] ['c'] ['b', 'x', 'b'] = ['c', 'x', 'c'] := by decide

example : countOccs ['a'] ['a', 'b', 'a'] = 2 := by decide

example : pyReplace [] ['x'] ['a', 'b'] = ['x', 'a', 'x', 'b', 'x'] := by decide

/-! ### Claims -/

/-- C1: for every file content in which the expected substring does not
occur, the operation fails with a `PatchMismatch` error before any write is
performed, and the file content is left completely unmodified. -/
theorem claim_C1_mismatch_no_write (e r text : List Char) (h : ¬ e <:+: text) :
    applyPatch e r text = PatchResult.patchMismatch ∧ (runPatch e r text).content = text := by
  refine ⟨applyPatch_of_absent e r text h, ?_⟩
  simp [runPatch, containsSub_eq_false e text h]

theorem claim_C1_witness :
    ¬ (['x'] : List Char) <:+: ['a', 'b'] ∧
      (applyPatch ['x'] ['y'] ['a', 'b'] = PatchResult.patchMismatch ∧
        (runPatch ['x'] ['y'] ['a', 'b']).content = ['a', 'b']) :=
  ⟨by decide, claim_C1_mismatch_no_write ['x'] ['y'] ['a', 'b'] (by decide)⟩

/-- C2: for every file content in which the expected substring occurs
(here: exactly once, written as `p ++ e ++ s` with `countOccs e _ = 1`),
the operation succeeds and only that single occurrence changes; all other
content is byte-identical. -/
theorem claim_C2_replaces_single_occurrence (e r p s : List Char)
    (h : countOccs e (p ++ e ++ s) = 1) :
    applyPatch e r (p ++ e ++ s) = PatchResult.ok (p ++ r ++ s) := by
  have hinfix : e <:+: p ++ e ++ s := ⟨p, s, rfl⟩
  rw [applyPatch_of_occurs e r _ hinfix]
  by_cases he : e = []
  · subst he
    rw [countOccs_nil] at h
    have hlen : p.length + s.length = 0 := by
      have h0 : (p ++ [] ++ s).length = 0 := by omega
      simpa using h0
    have hp : p = [] := List.eq_nil_of_length_eq_zero (by omega)
    have hs : s = [] := List.eq_nil_of_length_eq_zero (by omega)
    subst hp
    subst hs
    simp [pyReplace, replaceEmpty]
  · rw [pyReplace_of_ne e r _ he, pyReplaceNE_single e r p s he h]

theorem claim_C2_witness :
    countOccs ['b'] (['a'] ++ ['b'] ++ ['c']) = 1 ∧
      applyPatch ['b'] ['z'] (['a'] ++ ['b'] ++ ['c']) = PatchResult.ok (['a'] ++ ['z'] ++ ['c']) :=
  ⟨by decide, claim_C2_replaces_single_occurrence ['b'] ['z'] ['a'] ['c'] (by decide)⟩

/-- C3 counterexample: the program does NOT replace only the first textual
occurrence.  On `"bxb"` with expected `"b"` and replacement `"c"`, the code
yields `"cxc"` — the occurrence after the first is changed too — while
first-occurrence-only semantics would yield `"cxb"`. -/
theorem claim_C3_counterexample :
    applyPatch ['b'] ['c'] ['b', 'x', 'b'] = PatchResult.ok ['c', 'x', 'c'] ∧
      replaceFirstSpec ['b'] ['c'] ['b', 'x', 'b'] = ['c', 'x', 'b'] ∧
      (['c', 'x', 'c'] : List Char) ≠ ['c', 'x', 'b'] := by
  decide

/-- C3 (amended): the program replaces every occurrence, not only the first:
for content of the form `p ++ e ++ m ++ e ++ s` containing exactly two
occurrences of the non-empty expected string, both are replaced. -/
theorem claim_C3_replaces_all_occurrences (e r p m s : List Char) (he : e ≠ [])
    (h : countOccs e (p ++ e ++ m ++ e ++ s) = 2) :
    applyPatch e r (p ++ e ++ m ++ e ++ s) = PatchResult.ok (p ++ r ++ m ++ r ++ s) := by
  have hinfix : e <:+: p ++ e ++ m ++ e ++ s := ⟨p, m ++ e ++ s, by simp [List.append_assoc]⟩
  rw [applyPatch_of_occurs e r _ hinfix, pyReplace_of_ne e r _ he,
    pyReplaceNE_double e r p m s he h]

theorem claim_C3_witness :
    (['b'] : List Char) ≠ [] ∧
      countOccs ['b'] (['a'] ++ ['b'] ++ ['x'] ++ ['b'] ++ ['c']) = 2 ∧
      applyPatch ['b'] ['z'] (['a'] ++ ['b'] ++ ['x'] ++ ['b'] ++ ['c']) =
        PatchResult.ok (['a'] ++ ['z'] ++ ['x'] ++ ['z'] ++ ['c']) :=
  ⟨by decide, by decide,
    claim_C3_replaces_all_occurrences ['b'] ['z'] ['a'] ['x'] ['c'] (by decide) (by decide)⟩

/-- C4 counterexample: applying the same patch twice does NOT always fail
the second time.  With expected `"a"`, replacement `"aa"` and content `"a"`,
the first application yields `"aa"`, in which `"a"` still occurs, so the
second application succeeds (yielding `"aaaa"`) instead of raising
`PatchMismatch`. -/
theorem claim_C4_counterexample :
    applyPatch ['a'] ['a', 'a'] ['a'] = PatchResult.ok ['a', 'a'] ∧
      applyPatch ['a'] ['a', 'a'] ['a', 'a'] = PatchResult.ok ['a', 'a', 'a', 'a'] := by
  decide

/-- C4 (amended): after a successful application whose result no longer
contains the expected substring, applying the same patch again fails with
`PatchMismatch`; when the expected substring reoccurs in the result (e.g.
the replacement contains it), the second application succeeds instead. -/
theorem claim_C4_second_application_fails (e r text out : List Char)
    (h1 : applyPatch e r text = PatchResult.ok out) (h2 : ¬ e <:+: out) :
    applyPatch e r out = PatchResult.patchMismatch :=
  applyPatch_of_absent e r out h2

theorem claim_C4_witness :
    applyPatch ['b'] ['c'] ['a', 'b'] = PatchResult.ok ['a', 'c'] ∧
      ¬ (['b'] : List Char) <:+: ['a', 'c'] ∧
      applyPatch ['b'] ['c'] ['a', 'c'] = PatchResult.patchMismatch :=
  ⟨by decide, by decide,
    claim_C4_second_application_fails ['b'] ['c'] ['a', 'b'] ['a', 'c'] (by decide) (by decide)⟩

/-- C5 counterexample: disjointness of `expected` and `replacement` as
substrings (neither occurs in the other) does not rule out `expected`
reappearing after a successful application.  With expected `"da"`,
replacement `"cd"` (neither a substring of the other) and content `"daa"`,
the result is `"cda"`, which still contains `"da"`. -/
theorem claim_C5_counterexample :
    ¬ (['d', 'a'] : List Char) <:+: ['c', 'd'] ∧
      ¬ (['c', 'd'] : List Char) <:+: ['d', 'a'] ∧
      applyPatch ['d', 'a'] ['c', 'd'] ['d', 'a', 'a'] = PatchResult.ok ['c', 'd', 'a'] ∧
      (['d', 'a'] : List Char) <:+: ['c', 'd', 'a'] := by
  decide

/-- C5 (amended): when `expected` and `replacement` are non-empty and share
no character, after a successful application the resulting content contains
the replacement as a substring and does not contain the expected substring.
(Mere substring-disjointness is not enough; see the counterexample.) -/
theorem claim_C5_roundtrip_char_disjoint (e r text out : List Char) (he : e ≠ [])
    (hr : r ≠ []) (hd : ∀ c, c ∈ e → c ∉ r)
    (h : applyPatch e r text = PatchResult.ok out) :
    r <:+: out ∧ ¬ e <:+: out := by
  by_cases hc : containsSub e text = true
  · have hinfix := (containsSub_iff_occurs e text).mp hc
    rw [applyPatch_of_occurs e r text hinfix, pyReplace_of_ne e r text he] at h
    injection h with h
    subst h
    exact ⟨replacement_infix_pyReplaceNE e r he text hinfix,
      not_infix_pyReplaceNE e r he hr hd text⟩
  · rw [applyPatch_of_absent e r text
      (fun hinf => hc ((containsSub_iff_occurs e text).mpr hinf))] at h
    exact absurd h (by simp)

theorem claim_C5_witness :
    (['b'] : List Char) ≠ [] ∧ (['c'] : List Char) ≠ [] ∧
      (∀ c, c ∈ (['b'] : List Char) → c ∉ (['c'] : List Char)) ∧
      applyPatch ['b'] ['c'] ['a', 'b'] = PatchResult.ok ['a', 'c'] ∧
      ((['c'] : List Char) <:+: ['a', 'c'] ∧ ¬ (['b'] : List Char) <:+: ['a', 'c']) :=
  ⟨by decide, by decide,
    fun c hc hcr => by
      simp only [List.mem_singleton] at hc
      subst hc
      exact absurd hcr (by decide),
    by decide,
    claim_C5_roundtrip_char_disjoint ['b'] ['c'] ['a', 'b'] ['a', 'c'] (by decide) (by decide)
      (fun c hc hcr => by
        simp only [List.mem_singleton] at hc
        subst hc
        exact absurd hcr (by decide))
      (by decide)⟩

/-- C6: for content `"A\nB\nC\n"`, expected `"B\n"` and replacement
`"B2\nB3\n"`, the operation succeeds with result `"A\nB2\nB3\nC\n"`. -/
theorem claim_C6_concrete_scenario :
    applyPatch ['B', '\n'] ['B', '2', '\n', 'B', '3', '\n'] ['A', '\n', 'B', '\n', 'C', '\n'] =
      PatchResult.ok ['A', '\n', 'B', '2', '\n', 'B', '3', '\n', 'C', '\n'] := by
  decide

/-- C7: on `PatchMismatch` the process terminates with a non-zero exit
status and the diagnostic message `pattern not found`, and the file content
is unchanged (no partial write). -/
theorem claim_C7_process_exit (e r text : List Char) (h : ¬ e <:+: text) :
    (runPatch e r text).exitCode ≠ 0 ∧
      (runPatch e r text).message = "pattern not found" ∧
      (runPatch e r text).content = text := by
  simp [runPatch, containsSub_eq_false e text h]

theorem claim_C7_witness :
    ¬ (['x'] : List Char) <:+: ['a'] ∧
      ((runPatch ['x'] ['y'] ['a']).exitCode ≠ 0 ∧
        (runPatch ['x'] ['y'] ['a']).message = "pattern not found" ∧
        (runPatch ['x'] ['y'] ['a']).content = ['a']) :=
  ⟨by decide, claim_C7_process_exit ['x'] ['y'] ['a'] (by decide)⟩

/-- C8: the code never enforces non-emptiness of the expected string: for an
empty expected string the guard always holds, `PatchMismatch` is never
raised, and the replacement is inserted at every character boundary of the
content. -/
theorem claim_C8_empty_expected (r text : List Char) :
    applyPatch [] r text = PatchResult.ok (r ++ (text.map fun c => c :: r).flatten) := by
  rw [applyPatch_of_occurs [] r text List.nil_infix]
  simp [pyReplace, replaceEmpty_eq]

/-- C9: if the replacement equals the expected string and the expected
string occurs, the operation succeeds and returns the content unchanged. -/
theorem claim_C9_identity (e text : List Char) (h : e <:+: text) :
    applyPatch e e text = PatchResult.ok text := by
  rw [applyPatch_of_occurs e e text h]
  by_cases he : e = []
  · subst he
    simp [pyReplace, replaceEmpty_nil]
  · rw [pyReplace_of_ne e e text he, pyReplaceNE_self e he text]

theorem claim_C9_witness :
    (['b'] : List Char) <:+: ['a', 'b'] ∧
      applyPatch ['b'] ['b'] ['a', 'b'] = PatchResult.ok ['a', 'b'] :=
  ⟨by decide, claim_C9_identity ['b'] ['a', 'b'] (by decide)⟩

end ScriptUpdate
